import Mathlib

/-!
Verification of the numerical-gradient and wrapper utilities of the
`alibi` fragment (`alibi/utils/gradients.py` and `alibi/utils/wrappers.py`).

Arrays are modelled as shape-annotated flat lists of rationals stored in
C (row-major) order, mirroring `numpy` ndarrays.  Each numpy operation used
by the source is translated faithfully, including failure cases (shape
mismatches, `-1` inference failures, broadcasting errors), which are
modelled by `Option`.
-/

namespace Alibi

/-- Model of a numpy ndarray: a shape together with the flat data laid out
in C (row-major) order.  Entries are rationals (exact arithmetic). -/
structure Arr where
  shape : List ℕ
  data : List ℚ
  hlen : data.length = shape.prod

/-- Number of elements of an array. -/
def Arr.size (a : Arr) : ℕ := a.shape.prod

/-- Read the flat (C-order) entry at position `p` (0 outside the range). -/
def Arr.get (a : Arr) (p : ℕ) : ℚ := a.data.getD p 0

/-- Build an array of a given shape from a function on flat C-order positions. -/
def arrOf (s : List ℕ) (f : ℕ → ℚ) : Arr :=
  ⟨s, (List.range s.prod).map f, by simp⟩

/-- Model of `np.eye(d)`: the d-by-d identity matrix. -/
def npEye (d : ℕ) : Arr :=
  arrOf [d, d] (fun p => if p / d = p % d then (1 : ℚ) else 0)

/-- Model of `np.ones((r, c))`. -/
def npOnes (r c : ℕ) : Arr :=
  arrOf [r, c] (fun _ => (1 : ℚ))

/-- Elementwise multiplication of an array by a scalar (`A * eps`). -/
def mulScalar (a : Arr) (c : ℚ) : Arr :=
  arrOf a.shape (fun p => a.get p * c)

/-- Elementwise division of an array by a scalar (`A / (2 * eps)`). -/
def divScalar (a : Arr) (c : ℚ) : Arr :=
  arrOf a.shape (fun p => a.get p / c)

/-- Model of `np.tile(M, (k, 1))` for a 2-D `M` (the only form used by
`perturb`): stack `k` vertical copies of `M`. -/
def tileRows (a : Arr) (k : ℕ) : Arr :=
  let m := a.shape.getD 0 0
  let c := a.shape.getD 1 0
  arrOf [k * m, c] (fun p => a.get (((p / c) % m) * c + p % c))

/-- Model of `np.repeat(M, k, axis=0)` for a 2-D `M` (the only form used by
`perturb`): each row of `M` repeated `k` times consecutively. -/
def repeatRows (a : Arr) (k : ℕ) : Arr :=
  let m := a.shape.getD 0 0
  let c := a.shape.getD 1 0
  arrOf [m * k, c] (fun p => a.get ((p / c / k) * c + p % c))

/-- Model of numpy elementwise binary operations with broadcasting between
two 2-D arrays (the ranks arising at every call site of `+`/`-` in the
source).  Returns `none` (a raised error) when the shapes are not
broadcast-compatible. -/
def broadcast2 (op : ℚ → ℚ → ℚ) (a b : Arr) : Option Arr :=
  if a.shape.length = 2 ∧ b.shape.length = 2 then
    let r1 := a.shape.getD 0 0
    let c1 := a.shape.getD 1 0
    let r2 := b.shape.getD 0 0
    let c2 := b.shape.getD 1 0
    if (r1 = r2 ∨ r1 = 1 ∨ r2 = 1) ∧ (c1 = c2 ∨ c1 = 1 ∨ c2 = 1) then
      some (arrOf [max r1 r2, max c1 c2] (fun p =>
        let i := p / max c1 c2
        let j := p % max c1 c2
        op (a.get ((if r1 = 1 then 0 else i) * c1 + (if c1 = 1 then 0 else j)))
           (b.get ((if r2 = 1 then 0 else i) * c2 + (if c2 = 1 then 0 else j)))))
    else none
  else none

/-- Broadcasting elementwise addition (`A + B`). -/
def add2 (a b : Arr) : Option Arr := broadcast2 (· + ·) a b

/-- Broadcasting elementwise subtraction (`A - B`). -/
def sub2 (a b : Arr) : Option Arr := broadcast2 (· - ·) a b

/-- Model of numpy target-shape resolution for `reshape`, where `none` in the
target list stands for a `-1` entry: at most one `-1` is allowed, the known
dimensions must have nonzero product dividing the array size, and without a
`-1` the product must equal the size exactly. -/
def resolveShape (size : ℕ) (t : List (Option ℕ)) : Option (List ℕ) :=
  let known := (t.filterMap id).prod
  if t.count none = 0 then
    if known = size then some (t.map (fun o => o.getD 0)) else none
  else if t.count none = 1 then
    if 0 < known ∧ known ∣ size then
      some (t.map (fun o => o.getD (size / known)))
    else none
  else none

/-- Model of `np.reshape(A, t)` (C order, also `tf.reshape` and the
`.reshape` method): the data is reinterpreted under the new shape. -/
def reshapeC (a : Arr) (t : List (Option ℕ)) : Option Arr :=
  match resolveShape a.size t with
  | none => none
  | some s => if h : a.data.length = s.prod then some ⟨s, a.data, h⟩ else none

/-- Flat position of a multi-index in Fortran (column-major) order: the
first index varies fastest. -/
def fPos : List ℕ → List ℕ → ℕ
  | [], _ => 0
  | _, [] => 0
  | d :: s, i :: m => i + d * fPos s m

/-- Multi-index of a flat Fortran-order position. -/
def unrankF : List ℕ → ℕ → List ℕ
  | [], _ => []
  | d :: s, k => k % d :: unrankF s (k / d)

/-- Flat position of a multi-index in C (row-major) order: the last index
varies fastest. -/
def cPos (s m : List ℕ) : ℕ := fPos s.reverse m.reverse

/-- Multi-index of a flat C-order position. -/
def unrankC (s : List ℕ) (k : ℕ) : List ℕ := (unrankF s.reverse k).reverse

/-- Model of `np.reshape(A, t, order='F')`: ravel the array in Fortran
order and refill the new shape in Fortran order. -/
def reshapeF (a : Arr) (t : List (Option ℕ)) : Option Arr :=
  match resolveShape a.size t with
  | none => none
  | some s =>
    some (arrOf s (fun p =>
      a.get (cPos a.shape (unrankF a.shape (fPos s (unrankC s p))))))

/-- Model of `np.concatenate([A, B], axis=0)`: shapes must agree on all
trailing axes; the data lists concatenate in C order. -/
def concatRows (a b : Arr) : Option Arr :=
  match ha : a.shape, hb : b.shape with
  | r1 :: f1, r2 :: f2 =>
    if hf : f1 = f2 then
      some ⟨(r1 + r2) :: f1, a.data ++ b.data, by
        have h1 := a.hlen
        have h2 := b.hlen
        rw [ha] at h1
        rw [hb, ← hf] at h2
        simp [h1, h2, Nat.add_mul]⟩
    else none
  | _, _ => none

/-- Model of the row slice `A[:k]` of an array of rank at least 1 (numpy
slicing clamps, it never raises). -/
def sliceTake (a : Arr) (k : ℕ) : Option Arr :=
  match ha : a.shape with
  | [] => none
  | r :: f =>
    some ⟨min k r :: f, a.data.take (k * f.prod), by
      have h1 := a.hlen
      rw [ha] at h1
      have hmin : min (k * f.prod) (r * f.prod) = min k r * f.prod := by
        rcases le_total k r with h | h
        · rw [min_eq_left (Nat.mul_le_mul_right _ h), min_eq_left h]
        · rw [min_eq_right (Nat.mul_le_mul_right _ h), min_eq_right h]
      simp [h1, List.prod_cons, hmin]⟩

/-- Model of the row slice `A[k:]` of an array of rank at least 1. -/
def sliceDrop (a : Arr) (k : ℕ) : Option Arr :=
  match ha : a.shape with
  | [] => none
  | r :: f =>
    some ⟨(r - k) :: f, a.data.drop (k * f.prod), by
      have h1 := a.hlen
      rw [ha] at h1
      simp [h1, List.prod_cons, Nat.sub_mul]⟩

/-- Model of `perturb(X, eps, proba)` from `alibi/utils/gradients.py`.
`none` models a raised exception: indexing `X.shape[0]` on a rank-0 array,
or the failing `-1` reshape when the batch is empty.  The statements follow
the source line by line:
`X = np.reshape(X, (shape[0], -1))`; `pert = np.tile(np.eye(dim) * eps,
(shape[0], 1))`; in proba mode `pert += np.tile((np.eye(dim) -
np.ones((dim, dim))) * eps_n, (shape[0], 1))` with `eps_n = eps/(dim-1)`;
`X_rep = np.repeat(X, dim, axis=0)`; `X_pert_pos, X_pert_neg = X_rep +
pert, X_rep - pert`; both reshaped to `(dim * shape[0],) + shape[1:]`. -/
def perturb (X : Arr) (eps : ℚ) (proba : Bool) : Option (Arr × Arr) :=
  match X.shape with
  | [] => none
  | n :: f => do
    let Xf ← reshapeC X [some n, none]
    let dim := Xf.shape.getD 1 0
    let pert0 := tileRows (mulScalar (npEye dim) eps) n
    let pert ← if proba then do
        let epsN := eps / ((dim : ℚ) - 1)
        let corr ← sub2 (npEye dim) (npOnes dim dim)
        add2 pert0 (tileRows (mulScalar corr epsN) n)
      else pure pert0
    let Xrep := repeatRows Xf dim
    let pos2 ← add2 Xrep pert
    let neg2 ← sub2 Xrep pert
    let shape2 := (dim * n) :: f
    let pos ← reshapeC pos2 (shape2.map some)
    let neg ← reshapeC neg2 (shape2.map some)
    pure (pos, neg)

/-- Model of `num_grad_batch(func, X, args, eps)` from
`alibi/utils/gradients.py`.  The black-box function (with its extra `args`
already applied) is modelled as a total map on arrays; the `.numpy()`
conversion of the tensorflow output is the identity here.  `none` models a
raised exception: `X[0]` on an empty batch, or a failed reshape /
broadcasting error downstream.  Statement order follows the source:
`preds = tf.reshape(func(X), (-1, 1))`; `perturb(X, eps)`;
`X_pert = np.concatenate(...)`; `preds_concat = func(X_pert).reshape(-1, 1)`;
`grad_numerator = preds_concat[:n_pert] - preds_concat[n_pert:]`, reshaped
to `(batch_size, -1)` and then to `(batch_size, preds.shape[1], -1)` with
`order='F'`; `grad = grad_numerator / (2 * eps)` reshaped to
`preds.shape + data_shape`. -/
def num_grad_batch (func : Arr → Arr) (X : Arr) (eps : ℚ) : Option Arr :=
  match X.shape with
  | [] => none
  | n :: f =>
    -- data_shape = X[0].shape raises IndexError on an empty batch
    if n = 0 then none else
    let data_shape := f
    do
    let preds ← reshapeC (func X) [none, some 1]
    let pp ← perturb X eps false
    let xpert ← concatRows pp.1 pp.2
    let predsConcat ← reshapeC (func xpert) [none, some 1]
    let npert := pp.1.shape.getD 0 0
    let top ← sliceTake predsConcat npert
    let bot ← sliceDrop predsConcat npert
    let gn0 ← sub2 top bot
    let gn1 ← reshapeC gn0 [some n, none]
    let gn ← reshapeF gn1 [some n, some (preds.shape.getD 1 0), none]
    let grad := divScalar gn (2 * eps)
    reshapeC grad ((preds.shape ++ data_shape).map some)

/-- Model of the module-level registry `numerical_gradients`: an
insertion-ordered dictionary with the two framework keys mapping to lists
of registered callables.  Callables are an abstract type `α`. -/
def numericalGradientsInit (α : Type) : List (String × List α) :=
  [("pytorch", []), ("tensorflow", [])]

/-- Model of applying the `numerical_gradient(framework)` decorator to a
callable: `numerical_gradients[framework].append(func)`.  Indexing a dict
with a missing key raises `KeyError`, modelled by `none`; otherwise the
callable is appended to the list stored under the key. -/
def applyNumericalGradient {α : Type} (reg : List (String × List α))
    (framework : String) (func : α) : Option (List (String × List α)) :=
  match reg.lookup framework with
  | none => none
  | some _ =>
    some (reg.map (fun kv => if kv.1 = framework then (kv.1, kv.2 ++ [func]) else kv))

/-- Model of the module-level registry `blackbox_wrappers` from
`alibi/utils/wrappers.py`: both known frameworks start with value `None`. -/
def blackboxWrappersInit (α : Type) : List (String × Option α) :=
  [("pytorch", none), ("tensorflow", none)]

/-- Model of Python dict assignment `d[k] = v`: overwrite the value when
the key is present, otherwise append a new entry (insertion order). -/
def dictSet {β : Type} : List (String × β) → String → β → List (String × β)
  | [], k, v => [(k, v)]
  | (k0, v0) :: rest, k, v =>
    if k0 = k then (k0, v) :: rest else (k0, v0) :: dictSet rest k v

/-- Model of applying the `blackbox_wrapper(framework)` decorator to a
callable (`register_wrapper` in the source).  The source first executes
`blackbox_wrappers[framework] = func` and only afterwards checks
`framework not in ['pytorch', 'tensorflow']`, raising `ValueError` if so.
The returned pair is the registry state after the call together with a
success flag (`false` = the decorator raised). -/
def applyBlackboxWrapper {α : Type} (reg : List (String × Option α))
    (framework : String) (func : α) : List (String × Option α) × Bool :=
  let reg2 := dictSet reg framework (some func)
  (reg2, framework = "pytorch" ∨ framework = "tensorflow")

/-- Model of `get_blackbox_wrapper(framework)`: a pure dictionary lookup
`blackbox_wrappers[framework]`.  The outer `Option` is the possible
`KeyError`; the inner `Option α` is the stored value (`None` or a
registered callable). -/
def getBlackboxWrapper {α : Type} (reg : List (String × Option α))
    (framework : String) : Option (Option α) :=
  reg.lookup framework

/-- Model of an arbitrary classifier object: it may or may not expose a
`predict` attribute (a callable). -/
structure Classifier (α β : Type) where
  predict : Option (α → β)

/-- Model of a preprocessor object exposing a `transform` method. -/
structure Preprocessor (α : Type) where
  transform : α → α

/-- Model of a constructed `Predictor` instance: the captured
`predict_fcn` and the optional preprocessor. -/
structure Predictor (α β : Type) where
  predictFcn : α → β
  preprocessor : Option (Preprocessor α)

/-- Model of `Predictor.__init__(clf, preprocessor)`: raises
`AttributeError` when `clf` has no `predict` attribute, otherwise stores
`clf.predict` and the preprocessor. -/
def Predictor.make {α β : Type} (clf : Classifier α β)
    (preprocessor : Option (Preprocessor α)) : Except String (Predictor α β) :=
  match clf.predict with
  | none => Except.error "Classifier object is expected to have a predict method!"
  | some p => Except.ok ⟨p, preprocessor⟩

/-- Model of `Predictor.__call__(x)`: apply the preprocessor transform when
a (truthy) preprocessor was given, then the captured `predict` function. -/
def Predictor.call {α β : Type} (P : Predictor α β) (x : α) : β :=
  match P.preprocessor with
  | some pre => P.predictFcn (pre.transform x)
  | none => P.predictFcn x

/-- Model of `np.atleast_2d`: rank-0 arrays become shape (1, 1), rank-1
arrays of length k become shape (1, k), higher ranks are unchanged. -/
def npAtleast2d (a : Arr) : Arr :=
  match ha : a.shape with
  | [] => ⟨[1, 1], a.data, by have h := a.hlen; rw [ha] at h; simpa using h⟩
  | [k] => ⟨[1, k], a.data, by have h := a.hlen; rw [ha] at h; simpa using h⟩
  | _ => a

/-- Model of `np.argmax` on a flat list: index of the first maximal entry
(numpy scans left to right and keeps the first maximum). -/
def argmaxList (l : List ℚ) : ℕ :=
  (List.range l.length).foldl
    (fun best i => if l.getD best 0 < l.getD i 0 then i else best) 0

/-- Model of `np.argmax(A, axis=1)`, at the rank produced by
`np.atleast_2d` in `ArgmaxTransformer.__call__` (a 2-D array): one argmax
per row.  Reducing an empty axis raises, modelled by `none`. -/
def npArgmaxAxis1 (a : Arr) : Option (List ℕ) :=
  match a.shape with
  | [r, c] =>
    if 0 < r ∧ c = 0 then none
    else some ((List.range r).map (fun i => argmaxList ((a.data.drop (i * c)).take c)))
  | _ => none

/-- Model of `ArgmaxTransformer.__call__(x)`:
`np.argmax(np.atleast_2d(self.predictor(x)), axis=1)`. -/
def argmaxTransformerCall {α : Type} (predictor : α → Arr) (x : α) : Option (List ℕ) :=
  npArgmaxAxis1 (npAtleast2d (predictor x))

/-- Linear black-box function `f(x) = w . x` from the spec's testable
property: on a batch it returns one dot product per instance (each
instance flattened), an array of shape `(batch,)`. -/
def linFunc (w : List ℚ) (A : Arr) : Arr :=
  arrOf [A.shape.getD 0 0]
    (fun i => ∑ k ∈ Finset.range A.shape.tail.prod,
      w.getD k 0 * A.get (i * A.shape.tail.prod + k))

/-- Constant two-class predictor used to exhibit the failure of
`num_grad_batch` for more than one output class: predictions of shape
`(batch, 2)`, all zero. -/
def twoClassFunc (A : Arr) : Arr :=
  arrOf [A.shape.getD 0 0, 2] (fun _ => 0)

/-- Constant one-column predictor (predictions of shape `(batch, 1)`)
used as a concrete single-output black box. -/
def oneClassFunc (A : Arr) : Arr :=
  arrOf [A.shape.getD 0 0, 1] (fun _ => 0)

/-- Concrete 2-by-2 batch used as an explicit input in witnesses. -/
def sampleX22 : Arr := ⟨[2, 2], [1, 2, 3, 4], by simp⟩

/-- Concrete 1-by-2 batch used as an explicit input. -/
def sampleX12 : Arr := ⟨[1, 2], [5, 7], by simp⟩

/-- Concrete classifier exposing an identity `predict`, used in witnesses. -/
def sampleClf : Classifier ℚ ℚ := ⟨some (fun v => v)⟩

/-- Concrete doubling preprocessor, used in witnesses. -/
def samplePre : Preprocessor ℚ := ⟨fun v => v + v⟩

/-- Concrete predictor returning the 1-D probability vector (0, 1). -/
def samplePredictor : ℕ → Arr := fun _ => ⟨[2], [0, 1], by simp⟩

/-- Heap model used for the frame property of `perturb`: buffers of flat
rational data addressed by index.  `np.reshape` returns a view (no new
buffer); `np.eye`/`np.tile`/`np.repeat` and the elementwise `+`/`-`
allocate fresh buffers; the in-place `pert += ...` of the proba branch
overwrites the `pert` buffer.  Statements mirror `perturb` line by line;
buffer contents are computed with the same entry formulas as the pure
model.  `none` models the exceptions `perturb` can raise before returning
(rank-0 input, empty batch).  The result is the final heap together with
the buffer indices of `X_pert_pos` and `X_pert_neg`. -/
def perturbHeap (h : List (List ℚ)) (xId : ℕ) (xShape : List ℕ) (eps : ℚ)
    (proba : Bool) : Option (List (List ℚ) × ℕ × ℕ) :=
  match xShape with
  | [] => none
  | n :: f =>
    if n = 0 then none else
    let D := f.prod
    -- X = np.reshape(X, (shape[0], -1)) : a view of buffer xId
    let xget : ℕ → ℚ := fun p => (h.getD xId []).getD p 0
    -- pert = np.tile(np.eye(dim) * eps, (shape[0], 1)) : fresh buffer
    let pertId := h.length
    let h1 := h ++ [(List.range (n * D * D)).map
      (fun p => if (p / D) % D = p % D then eps else 0)]
    -- proba branch: pert += np.tile((np.eye(dim) - np.ones((dim, dim))) * eps_n,
    -- (shape[0], 1)) : in-place write to the pert buffer
    let h2 := if proba then
        h1.set pertId (List.zipWith (· + ·) (h1.getD pertId [])
          ((List.range (n * D * D)).map (fun p =>
            ((if (p / D) % D = p % D then (1 : ℚ) else 0) - 1) * (eps / ((D : ℚ) - 1)))))
      else h1
    -- X_rep = np.repeat(X, dim, axis=0) : fresh buffer
    let xrepId := h2.length
    let h3 := h2 ++ [(List.range (n * D * D)).map
      (fun p => xget ((p / D / D) * D + p % D))]
    -- X_pert_pos, X_pert_neg = X_rep + pert, X_rep - pert : fresh buffers
    let posId := h3.length
    let h4 := h3 ++ [List.zipWith (· + ·) (h3.getD xrepId []) (h3.getD pertId [])]
    let negId := h4.length
    let h5 := h4 ++ [List.zipWith (· - ·) (h4.getD xrepId []) (h4.getD pertId [])]
    -- the final reshapes return views of the two fresh result buffers
    some (h5, posId, negId)

/-! Basic lemmas about the array model. -/

theorem getD_range_map (g : ℕ → ℚ) (m p : ℕ) (hp : p < m) :
    ((List.range m).map g).getD p 0 = g p := by
  rw [List.getD_eq_getElem?_getD, List.getElem?_map, List.getElem?_range hp]
  rfl

theorem arrOf_shape (s : List ℕ) (g : ℕ → ℚ) : (arrOf s g).shape = s := rfl

theorem arrOf_get (s : List ℕ) (g : ℕ → ℚ) (p : ℕ) (hp : p < s.prod) :
    (arrOf s g).get p = g p :=
  getD_range_map g s.prod p hp

theorem arrOf_size (s : List ℕ) (g : ℕ → ℚ) : (arrOf s g).size = s.prod := rfl

theorem arrOf_congr (s : List ℕ) (g g2 : ℕ → ℚ)
    (h : ∀ p < s.prod, g p = g2 p) : arrOf s g = arrOf s g2 := by
  simp only [arrOf, Arr.mk.injEq, true_and]
  exact List.map_congr_left (fun p hp => h p (List.mem_range.mp hp))

theorem Arr.get_of_data_eq {a b : Arr} (h : b.data = a.data) (p : ℕ) :
    b.get p = a.get p := by
  simp [Arr.get, h]

theorem Arr.size_eq_length (a : Arr) : a.data.length = a.size := a.hlen

theorem getD_take (l : List ℚ) (k p : ℕ) (hp : p < k) :
    (l.take k).getD p 0 = l.getD p 0 := by
  rw [List.getD_eq_getElem?_getD, List.getElem?_take, if_pos hp,
    ← List.getD_eq_getElem?_getD]

theorem getD_drop (l : List ℚ) (k p : ℕ) :
    (l.drop k).getD p 0 = l.getD (k + p) 0 := by
  rw [List.getD_eq_getElem?_getD, List.getElem?_drop,
    ← List.getD_eq_getElem?_getD]

/-! Lemmas computing `resolveShape` at the target shapes used by the source. -/

theorem resolveShape_infer_col (m : ℕ) :
    resolveShape m [none, some 1] = some [m, 1] := by
  simp [resolveShape]

theorem resolveShape_rows (n m : ℕ) (hn : 0 < n) (hd : n ∣ m) :
    resolveShape m [some n, none] = some [n, m / n] := by
  simp [resolveShape, hn, hd]

theorem resolveShape_fshape (n m : ℕ) (hn : 0 < n) (hd : n ∣ m) :
    resolveShape m [some n, some 1, none] = some [n, 1, m / n] := by
  simp [resolveShape, hn, hd]

theorem resolveShape_allSome (l : List ℕ) (m : ℕ) (h : l.prod = m) :
    resolveShape m (l.map some) = some l := by
  have hc : (l.map some).count none = 0 := by
    rw [List.count_eq_zero]
    simp
  have hf : (l.map some).filterMap id = l := by
    rw [List.filterMap_map]
    simp [List.filterMap_eq_map]
  have hm : (l.map some).map (fun o => o.getD 0) = l := by
    rw [List.map_map]
    exact List.map_id l
  simp [resolveShape, hc, hf, hm, h]

/-! Lemmas characterising the reshape operations. -/

theorem reshapeC_spec (a : Arr) (t : List (Option ℕ)) (s : List ℕ)
    (hr : resolveShape a.size t = some s) (hp : s.prod = a.size) :
    ∃ b : Arr, reshapeC a t = some b ∧ b.shape = s ∧ b.data = a.data := by
  have hl : a.data.length = s.prod := by rw [a.hlen, hp]; rfl
  refine ⟨⟨s, a.data, hl⟩, ?_, rfl, rfl⟩
  simp [reshapeC, hr, hl]

theorem reshapeF_spec (a : Arr) (t : List (Option ℕ)) (s : List ℕ)
    (hr : resolveShape a.size t = some s) :
    reshapeF a t
      = some (arrOf s (fun p =>
          a.get (cPos a.shape (unrankF a.shape (fPos s (unrankC s p)))))) := by
  simp [reshapeF, hr]

theorem reverse_two (a b : ℕ) : ([a, b] : List ℕ).reverse = [b, a] := rfl

theorem reverse_three (a b c : ℕ) : ([a, b, c] : List ℕ).reverse = [c, b, a] := rfl

/-- The Fortran-order reshape from shape `(n, D)` to shape `(n, 1, D)`
performed by `num_grad_batch` maps every in-range flat position to itself. -/
theorem fIndex_id (n D p : ℕ) (hp : p < n * D) :
    cPos [n, D] (unrankF [n, D] (fPos [n, 1, D] (unrankC [n, 1, D] p))) = p := by
  rcases Nat.eq_zero_or_pos D with hD | hD
  · subst hD; simp at hp
  rcases Nat.eq_zero_or_pos n with hn | hn
  · subst hn; simp at hp
  have hdn : p / D < n := (Nat.div_lt_iff_lt_mul hD).mpr hp
  have h1 : unrankC [n, 1, D] p = [p / D % n, 0, p % D] := by
    unfold unrankC
    rw [reverse_three]
    simp [unrankF, Nat.mod_one, Nat.div_one, reverse_three]
  have h2 : fPos [n, 1, D] [p / D % n, 0, p % D] = p / D + n * (p % D) := by
    simp [fPos, Nat.mod_eq_of_lt hdn]
  rw [h1, h2]
  have h3 : unrankF [n, D] (p / D + n * (p % D))
      = [(p / D + n * (p % D)) % n, (p / D + n * (p % D)) / n % D] := by
    simp [unrankF]
  have h4 : (p / D + n * (p % D)) % n = p / D := by
    rw [Nat.add_mul_mod_self_left, Nat.mod_eq_of_lt hdn]
  have h5 : (p / D + n * (p % D)) / n = p % D := by
    rw [Nat.add_mul_div_left _ _ hn, Nat.div_eq_of_lt hdn, Nat.zero_add]
  rw [h3, h4, h5]
  have h6 : p % D % D = p % D := Nat.mod_mod_of_dvd _ dvd_rfl
  rw [h6]
  unfold cPos
  rw [reverse_two, reverse_two]
  simp [fPos]
  exact Nat.mod_add_div p D

/-- Broadcasting between two arrays of the same 2-D shape is plain
elementwise application. -/
theorem broadcast2_same (op : ℚ → ℚ → ℚ) (a b : Arr) (r c : ℕ)
    (ha : a.shape = [r, c]) (hb : b.shape = [r, c]) :
    broadcast2 op a b = some (arrOf [r, c] (fun p => op (a.get p) (b.get p))) := by
  have hidx : ∀ p, p < r * c →
      ((if r = 1 then 0 else p / c * c) + if c = 1 then 0 else p % c) = p := by
    intro p hp
    have hbase : p / c * c + p % c = p := by
      rw [Nat.mul_comm]
      exact Nat.div_add_mod p c
    by_cases hr : r = 1
    · subst hr
      rw [Nat.one_mul] at hp
      have hmc : p % c = p := Nat.mod_eq_of_lt hp
      by_cases hc : c = 1
      · subst hc
        have hp0 : p = 0 := by simpa using hmc
        simp [hp0]
      · simp [hc, hmc]
    · by_cases hc : c = 1
      · subst hc
        simp [hr, Nat.mod_one, Nat.div_one]
      · simp [hr, hc, hbase]
  simp only [broadcast2, ha, hb]
  norm_num
  apply arrOf_congr
  intro p hp
  have hp2 : p < r * c := by simpa using hp
  rw [hidx p hp2]

/-! Pointwise characterisations of the tiled perturbation matrices. -/

theorem idx_div (u y D : ℕ) (hy : y < D) : (u * D + y) / D = u := by
  have hD : 0 < D := Nat.pos_of_ne_zero (by omega)
  rw [Nat.mul_comm, Nat.mul_add_div hD, Nat.div_eq_of_lt hy, Nat.add_zero]

theorem idx_mod (u y D : ℕ) (hy : y < D) : (u * D + y) % D = y := by
  rw [Nat.mul_comm, Nat.mul_add_mod, Nat.mod_eq_of_lt hy]

theorem tile_square_get (a : Arr) (D n p : ℕ) (ha : a.shape = [D, D])
    (hp : p < n * D * D) :
    (tileRows a n).get p = a.get ((p / D % D) * D + p % D) := by
  have : tileRows a n = arrOf [n * D, D] (fun q => a.get ((q / D % D) * D + q % D)) := by
    simp [tileRows, ha]
  rw [this]
  exact arrOf_get _ _ p (by simp [List.prod_cons]; omega)

theorem eye_mul_get (D : ℕ) (eps : ℚ) (q : ℕ) (hq : q < D * D) :
    (mulScalar (npEye D) eps).get q = if q / D = q % D then eps else 0 := by
  have hb : q < ([D, D] : List ℕ).prod := by simpa using hq
  have h1 : (mulScalar (npEye D) eps).get q = (npEye D).get q * eps :=
    arrOf_get [D, D] (fun r => (npEye D).get r * eps) q hb
  have h2 : (npEye D).get q = if q / D = q % D then (1 : ℚ) else 0 :=
    arrOf_get [D, D] (fun r => if r / D = r % D then (1 : ℚ) else 0) q hb
  rw [h1, h2]
  by_cases h : q / D = q % D <;> simp [h]

theorem pert_tile_get (D n : ℕ) (eps : ℚ) (p : ℕ) (hp : p < n * D * D) :
    (tileRows (mulScalar (npEye D) eps) n).get p
      = if p / D % D = p % D then eps else 0 := by
  have hD : 0 < D := by
    rcases Nat.eq_zero_or_pos D with h | h
    · subst h; omega
    · exact h
  have hmod : p % D < D := Nat.mod_lt _ hD
  rw [tile_square_get _ D n p rfl hp,
    eye_mul_get D eps _ (by
      have h1 : p / D % D < D := Nat.mod_lt _ hD
      calc p / D % D * D + p % D < p / D % D * D + D := by omega
        _ ≤ D * D := by nlinarith),
    idx_div _ _ _ hmod, idx_mod _ _ _ hmod]

theorem corr_tile_get (D n : ℕ) (c : ℚ) (p : ℕ) (hp : p < n * D * D) :
    (tileRows (mulScalar
        (arrOf [D, D] (fun q => (npEye D).get q - (npOnes D D).get q)) c) n).get p
      = ((if p / D % D = p % D then (1 : ℚ) else 0) - 1) * c := by
  have hD : 0 < D := by
    rcases Nat.eq_zero_or_pos D with h | h
    · subst h; omega
    · exact h
  have hmod : p % D < D := Nat.mod_lt _ hD
  have hq : p / D % D * D + p % D < D * D := by
    have h1 : p / D % D < D := Nat.mod_lt _ hD
    calc p / D % D * D + p % D < p / D % D * D + D := by omega
      _ ≤ D * D := by nlinarith
  have hb : p / D % D * D + p % D < ([D, D] : List ℕ).prod := by simpa using hq
  rw [tile_square_get _ D n p rfl hp]
  have h1 : (mulScalar (arrOf [D, D]
        (fun q => (npEye D).get q - (npOnes D D).get q)) c).get (p / D % D * D + p % D)
      = ((arrOf [D, D] (fun q => (npEye D).get q - (npOnes D D).get q)).get
          (p / D % D * D + p % D)) * c :=
    arrOf_get [D, D]
      (fun r => (arrOf [D, D] (fun q => (npEye D).get q - (npOnes D D).get q)).get r * c)
      _ hb
  rw [h1]
  have h2 : (arrOf [D, D] (fun q => (npEye D).get q - (npOnes D D).get q)).get
      (p / D % D * D + p % D)
      = (npEye D).get (p / D % D * D + p % D) - (npOnes D D).get (p / D % D * D + p % D) :=
    arrOf_get [D, D] (fun q => (npEye D).get q - (npOnes D D).get q) _ hb
  rw [h2]
  have h3 : (npEye D).get (p / D % D * D + p % D)
      = if p / D % D = p % D then (1 : ℚ) else 0 := by
    have h : (npEye D).get (p / D % D * D + p % D)
        = if (p / D % D * D + p % D) / D = (p / D % D * D + p % D) % D
          then (1 : ℚ) else 0 :=
      arrOf_get [D, D] (fun r => if r / D = r % D then (1 : ℚ) else 0)
        (p / D % D * D + p % D) hb
    rw [idx_div _ _ _ hmod, idx_mod _ _ _ hmod] at h
    exact h
  have h4 : (npOnes D D).get (p / D % D * D + p % D) = 1 :=
    arrOf_get [D, D] (fun _ => (1 : ℚ)) _ hb
  rw [h3, h4]

theorem repeatRows_shape (a : Arr) (m c k : ℕ) (ha : a.shape = [m, c]) :
    (repeatRows a k).shape = [m * k, c] := by
  simp [repeatRows, ha, arrOf_shape]

theorem repeatRows_get (a : Arr) (m c k p : ℕ) (ha : a.shape = [m, c])
    (hp : p < m * k * c) :
    (repeatRows a k).get p = a.get ((p / c / k) * c + p % c) := by
  have : repeatRows a k = arrOf [m * k, c] (fun q => a.get ((q / c / k) * c + q % c)) := by
    simp [repeatRows, ha]
  rw [this]
  exact arrOf_get _ _ p (by simp [List.prod_cons]; omega)

theorem tileRows_shape (a : Arr) (m c k : ℕ) (ha : a.shape = [m, c]) :
    (tileRows a k).shape = [k * m, c] := by
  simp [tileRows, ha, arrOf_shape]

/-- Full characterisation of `perturb` in non-proba mode on a batch of
shape `(n, *f)` with `0 < n`: it succeeds, both outputs have shape
`(f.prod * n, *f)`, and entry `p` of the flattened `(n*D, D)` layout is the
original entry plus/minus `eps` on the diagonal feature. -/
theorem perturb_false_spec (X : Arr) (n : ℕ) (f : List ℕ) (eps : ℚ)
    (hX : X.shape = n :: f) (hn : 0 < n) :
    ∃ pos neg, perturb X eps false = some (pos, neg) ∧
      pos.shape = (f.prod * n) :: f ∧ neg.shape = (f.prod * n) :: f ∧
      (∀ p, p < n * f.prod * f.prod →
        pos.get p = X.get ((p / f.prod / f.prod) * f.prod + p % f.prod)
          + (if p / f.prod % f.prod = p % f.prod then eps else 0)) ∧
      (∀ p, p < n * f.prod * f.prod →
        neg.get p = X.get ((p / f.prod / f.prod) * f.prod + p % f.prod)
          - (if p / f.prod % f.prod = p % f.prod then eps else 0)) := by
  have hsize : X.size = n * f.prod := by simp [Arr.size, hX]
  have hres : resolveShape X.size [some n, none] = some [n, f.prod] := by
    rw [hsize, resolveShape_rows n (n * f.prod) hn (Dvd.intro _ rfl),
      Nat.mul_div_cancel_left _ hn]
  have hps : ([n, f.prod] : List ℕ).prod = X.size := by simp [hsize]
  obtain ⟨Xf, hXfEq, hXfS, hXfD⟩ := reshapeC_spec X [some n, none] [n, f.prod] hres hps
  have hpertS : (tileRows (mulScalar (npEye f.prod) eps) n).shape
      = [n * f.prod, f.prod] := tileRows_shape _ f.prod f.prod n rfl
  have hXrepS : (repeatRows Xf f.prod).shape = [n * f.prod, f.prod] :=
    repeatRows_shape Xf n f.prod f.prod hXfS
  have hadd := broadcast2_same (· + ·) (repeatRows Xf f.prod)
    (tileRows (mulScalar (npEye f.prod) eps) n) (n * f.prod) f.prod hXrepS hpertS
  have hsubb := broadcast2_same (· - ·) (repeatRows Xf f.prod)
    (tileRows (mulScalar (npEye f.prod) eps) n) (n * f.prod) f.prod hXrepS hpertS
  have hprodEq : ∀ g : ℕ → ℚ, ((f.prod * n) :: f).prod
      = (arrOf [n * f.prod, f.prod] g).size := by
    intro g
    simp only [arrOf_size, List.prod_cons, List.prod_nil, mul_one]
    ring
  obtain ⟨pos, hposEq, hposS, hposD⟩ := reshapeC_spec
    (arrOf [n * f.prod, f.prod] (fun p => (repeatRows Xf f.prod).get p
      + (tileRows (mulScalar (npEye f.prod) eps) n).get p))
    (((f.prod * n) :: f).map some) ((f.prod * n) :: f)
    (resolveShape_allSome _ _ (hprodEq _)) (hprodEq _)
  obtain ⟨neg, hnegEq, hnegS, hnegD⟩ := reshapeC_spec
    (arrOf [n * f.prod, f.prod] (fun p => (repeatRows Xf f.prod).get p
      - (tileRows (mulScalar (npEye f.prod) eps) n).get p))
    (((f.prod * n) :: f).map some) ((f.prod * n) :: f)
    (resolveShape_allSome _ _ (hprodEq _)) (hprodEq _)
  refine ⟨pos, neg, ?_, hposS, hnegS, ?_, ?_⟩
  · simp only [perturb, hX, hXfEq, Option.bind_eq_bind, Option.some_bind,
      Bool.false_eq_true, if_false, hXfS]
    simp only [List.getD_cons_succ, List.getD_cons_zero, Option.pure_def,
      Option.some_bind, add2, sub2]
    rw [hadd]
    simp only [Option.some_bind]
    rw [hsubb]
    simp only [Option.some_bind]
    rw [hposEq]
    simp only [Option.some_bind]
    rw [hnegEq]
    simp only [Option.some_bind]
  · intro p hp
    have hp2 : p < ([n * f.prod, f.prod] : List ℕ).prod := by
      simpa [List.prod_cons, Nat.mul_assoc] using hp
    have h1 : pos.get p = (repeatRows Xf f.prod).get p
        + (tileRows (mulScalar (npEye f.prod) eps) n).get p := by
      rw [Arr.get_of_data_eq hposD]
      exact arrOf_get _ _ p hp2
    rw [h1, repeatRows_get Xf n f.prod f.prod p hXfS hp,
      Arr.get_of_data_eq hXfD, pert_tile_get f.prod n eps p hp]
  · intro p hp
    have hp2 : p < ([n * f.prod, f.prod] : List ℕ).prod := by
      simpa [List.prod_cons, Nat.mul_assoc] using hp
    have h1 : neg.get p = (repeatRows Xf f.prod).get p
        - (tileRows (mulScalar (npEye f.prod) eps) n).get p := by
      rw [Arr.get_of_data_eq hnegD]
      exact arrOf_get _ _ p hp2
    rw [h1, repeatRows_get Xf n f.prod f.prod p hXfS hp,
      Arr.get_of_data_eq hXfD, pert_tile_get f.prod n eps p hp]

/-- Full characterisation of `perturb` in proba mode: the perturbation
applied at flat position `p` of the `(n*D, D)` layout is `eps` on the
diagonal feature plus the off-diagonal correction `-eps/(D-1)`. -/
theorem perturb_true_spec (X : Arr) (n : ℕ) (f : List ℕ) (eps : ℚ)
    (hX : X.shape = n :: f) (hn : 0 < n) :
    ∃ pos neg, perturb X eps true = some (pos, neg) ∧
      pos.shape = (f.prod * n) :: f ∧ neg.shape = (f.prod * n) :: f ∧
      (∀ p, p < n * f.prod * f.prod →
        pos.get p = X.get ((p / f.prod / f.prod) * f.prod + p % f.prod)
          + ((if p / f.prod % f.prod = p % f.prod then eps else 0)
            + ((if p / f.prod % f.prod = p % f.prod then (1 : ℚ) else 0) - 1)
              * (eps / ((f.prod : ℚ) - 1)))) ∧
      (∀ p, p < n * f.prod * f.prod →
        neg.get p = X.get ((p / f.prod / f.prod) * f.prod + p % f.prod)
          - ((if p / f.prod % f.prod = p % f.prod then eps else 0)
            + ((if p / f.prod % f.prod = p % f.prod then (1 : ℚ) else 0) - 1)
              * (eps / ((f.prod : ℚ) - 1)))) := by
  have hsize : X.size = n * f.prod := by simp [Arr.size, hX]
  have hres : resolveShape X.size [some n, none] = some [n, f.prod] := by
    rw [hsize, resolveShape_rows n (n * f.prod) hn (Dvd.intro _ rfl),
      Nat.mul_div_cancel_left _ hn]
  have hps : ([n, f.prod] : List ℕ).prod = X.size := by simp [hsize]
  obtain ⟨Xf, hXfEq, hXfS, hXfD⟩ := reshapeC_spec X [some n, none] [n, f.prod] hres hps
  have hcorr := broadcast2_same (· - ·) (npEye f.prod) (npOnes f.prod f.prod)
    f.prod f.prod rfl rfl
  have hpertS : (tileRows (mulScalar (npEye f.prod) eps) n).shape
      = [n * f.prod, f.prod] := tileRows_shape _ f.prod f.prod n rfl
  have hcorrS : (tileRows (mulScalar
      (arrOf [f.prod, f.prod]
        (fun q => (npEye f.prod).get q - (npOnes f.prod f.prod).get q))
      (eps / ((f.prod : ℚ) - 1))) n).shape = [n * f.prod, f.prod] :=
    tileRows_shape _ f.prod f.prod n rfl
  have hpert := broadcast2_same (· + ·) (tileRows (mulScalar (npEye f.prod) eps) n)
    (tileRows (mulScalar
      (arrOf [f.prod, f.prod]
        (fun q => (npEye f.prod).get q - (npOnes f.prod f.prod).get q))
      (eps / ((f.prod : ℚ) - 1))) n) (n * f.prod) f.prod hpertS hcorrS
  have hXrepS : (repeatRows Xf f.prod).shape = [n * f.prod, f.prod] :=
    repeatRows_shape Xf n f.prod f.prod hXfS
  have hadd := broadcast2_same (· + ·) (repeatRows Xf f.prod)
    (arrOf [n * f.prod, f.prod] (fun p =>
      (tileRows (mulScalar (npEye f.prod) eps) n).get p
      + (tileRows (mulScalar
          (arrOf [f.prod, f.prod]
            (fun q => (npEye f.prod).get q - (npOnes f.prod f.prod).get q))
          (eps / ((f.prod : ℚ) - 1))) n).get p))
    (n * f.prod) f.prod hXrepS rfl
  have hsubb := broadcast2_same (· - ·) (repeatRows Xf f.prod)
    (arrOf [n * f.prod, f.prod] (fun p =>
      (tileRows (mulScalar (npEye f.prod) eps) n).get p
      + (tileRows (mulScalar
          (arrOf [f.prod, f.prod]
            (fun q => (npEye f.prod).get q - (npOnes f.prod f.prod).get q))
          (eps / ((f.prod : ℚ) - 1))) n).get p))
    (n * f.prod) f.prod hXrepS rfl
  have hprodEq : ∀ g : ℕ → ℚ, ((f.prod * n) :: f).prod
      = (arrOf [n * f.prod, f.prod] g).size := by
    intro g
    simp only [arrOf_size, List.prod_cons, List.prod_nil, mul_one]
    ring
  obtain ⟨pos, hposEq, hposS, hposD⟩ := reshapeC_spec
    (arrOf [n * f.prod, f.prod] (fun p => (repeatRows Xf f.prod).get p
      + (arrOf [n * f.prod, f.prod] (fun q =>
          (tileRows (mulScalar (npEye f.prod) eps) n).get q
          + (tileRows (mulScalar
              (arrOf [f.prod, f.prod]
                (fun r => (npEye f.prod).get r - (npOnes f.prod f.prod).get r))
              (eps / ((f.prod : ℚ) - 1))) n).get q)).get p))
    (((f.prod * n) :: f).map some) ((f.prod * n) :: f)
    (resolveShape_allSome _ _ (hprodEq _)) (hprodEq _)
  obtain ⟨neg, hnegEq, hnegS, hnegD⟩ := reshapeC_spec
    (arrOf [n * f.prod, f.prod] (fun p => (repeatRows Xf f.prod).get p
      - (arrOf [n * f.prod, f.prod] (fun q =>
          (tileRows (mulScalar (npEye f.prod) eps) n).get q
          + (tileRows (mulScalar
              (arrOf [f.prod, f.prod]
                (fun r => (npEye f.prod).get r - (npOnes f.prod f.prod).get r))
              (eps / ((f.prod : ℚ) - 1))) n).get q)).get p))
    (((f.prod * n) :: f).map some) ((f.prod * n) :: f)
    (resolveShape_allSome _ _ (hprodEq _)) (hprodEq _)
  have hpget : ∀ p, p < n * f.prod * f.prod →
      (arrOf [n * f.prod, f.prod] (fun q =>
          (tileRows (mulScalar (npEye f.prod) eps) n).get q
          + (tileRows (mulScalar
              (arrOf [f.prod, f.prod]
                (fun r => (npEye f.prod).get r - (npOnes f.prod f.prod).get r))
              (eps / ((f.prod : ℚ) - 1))) n).get q)).get p
        = (if p / f.prod % f.prod = p % f.prod then eps else 0)
          + ((if p / f.prod % f.prod = p % f.prod then (1 : ℚ) else 0) - 1)
            * (eps / ((f.prod : ℚ) - 1)) := by
    intro p hp
    have hp2 : p < ([n * f.prod, f.prod] : List ℕ).prod := by
      simpa [List.prod_cons, Nat.mul_assoc] using hp
    rw [arrOf_get _ _ p hp2, pert_tile_get f.prod n eps p hp,
      corr_tile_get f.prod n (eps / ((f.prod : ℚ) - 1)) p hp]
  refine ⟨pos, neg, ?_, hposS, hnegS, ?_, ?_⟩
  · simp only [perturb, hX, hXfEq, Option.bind_eq_bind, Option.some_bind, hXfS]
    simp only [List.getD_cons_succ, List.getD_cons_zero, Option.pure_def,
      Option.some_bind, add2, sub2, if_true]
    rw [hcorr]
    simp only [Option.some_bind]
    rw [hpert]
    simp only [Option.some_bind]
    rw [hadd]
    simp only [Option.some_bind]
    rw [hsubb]
    simp only [Option.some_bind]
    rw [hposEq]
    simp only [Option.some_bind]
    rw [hnegEq]
    simp only [Option.some_bind]
  · intro p hp
    have hp2 : p < ([n * f.prod, f.prod] : List ℕ).prod := by
      simpa [List.prod_cons, Nat.mul_assoc] using hp
    have h1 := Arr.get_of_data_eq hposD p
    rw [h1, arrOf_get _ _ p hp2, repeatRows_get Xf n f.prod f.prod p hXfS hp,
      Arr.get_of_data_eq hXfD, hpget p hp]
  · intro p hp
    have hp2 : p < ([n * f.prod, f.prod] : List ℕ).prod := by
      simpa [List.prod_cons, Nat.mul_assoc] using hp
    have h1 := Arr.get_of_data_eq hnegD p
    rw [h1, arrOf_get _ _ p hp2, repeatRows_get Xf n f.prod f.prod p hXfS hp,
      Arr.get_of_data_eq hXfD, hpget p hp]

theorem row_idx_lt (i j k n D : ℕ) (hi : i < n) (hj : j < D) (hk : k < D) :
    (i * D + j) * D + k < n * D * D := by
  have h1 : i * D + j + 1 ≤ n * D := by
    calc i * D + j + 1 ≤ i * D + D := by omega
      _ = (i + 1) * D := by ring
      _ ≤ n * D := Nat.mul_le_mul_right D hi
  calc (i * D + j) * D + k < (i * D + j) * D + D := by omega
    _ = (i * D + j + 1) * D := by ring
    _ ≤ n * D * D := Nat.mul_le_mul_right D h1

/-- C4: for every batch `X` of shape `(N, *F)` (nonempty batch) with
flattened feature count `D` and every step size `eps`,
`perturb(X, eps, proba=False)` returns `X_pert_pos` and `X_pert_neg`, each
of shape `(N*D, *F)`, where row `i*D + j` equals instance `i` with feature
`j` increased (resp. decreased) by `eps` and all other features unchanged,
hence the difference of the two rows is `2*eps` at feature `j` and `0`
elsewhere. -/
theorem perturb_rows_spec (X : Arr) (n : ℕ) (f : List ℕ) (eps : ℚ)
    (hX : X.shape = n :: f) (hn : 0 < n) :
    ∃ pos neg, perturb X eps false = some (pos, neg) ∧
      pos.shape = (f.prod * n) :: f ∧ neg.shape = (f.prod * n) :: f ∧
      ∀ i j k, i < n → j < f.prod → k < f.prod →
        pos.get ((i * f.prod + j) * f.prod + k)
            = X.get (i * f.prod + k) + (if j = k then eps else 0) ∧
        neg.get ((i * f.prod + j) * f.prod + k)
            = X.get (i * f.prod + k) - (if j = k then eps else 0) ∧
        pos.get ((i * f.prod + j) * f.prod + k)
            - neg.get ((i * f.prod + j) * f.prod + k)
            = (if j = k then 2 * eps else 0) := by
  obtain ⟨pos, neg, hEq, hposS, hnegS, hposG, hnegG⟩ :=
    perturb_false_spec X n f eps hX hn
  refine ⟨pos, neg, hEq, hposS, hnegS, ?_⟩
  intro i j k hi hj hk
  have hp : (i * f.prod + j) * f.prod + k < n * f.prod * f.prod :=
    row_idx_lt i j k n f.prod hi hj hk
  have h1 := hposG _ hp
  have h2 := hnegG _ hp
  rw [idx_div _ _ _ hk, idx_mod _ _ _ hk, idx_div _ _ _ hj, idx_mod _ _ _ hj]
    at h1 h2
  refine ⟨h1, h2, ?_⟩
  rw [h1, h2]
  by_cases h : j = k
  · simp only [h, if_true, eq_self_iff_true]
    ring
  · simp [h]

/-- Witness for C4 at the concrete batch `sampleX22` with `eps = 1`. -/
theorem perturb_rows_spec_witness :
    sampleX22.shape = 2 :: [2] ∧ 0 < 2 ∧
    (∃ pos neg, perturb sampleX22 1 false = some (pos, neg) ∧
      pos.shape = [4, 2] ∧ neg.shape = [4, 2] ∧
      ∀ i j k, i < 2 → j < 2 → k < 2 →
        pos.get ((i * 2 + j) * 2 + k)
            = sampleX22.get (i * 2 + k) + (if j = k then 1 else 0) ∧
        neg.get ((i * 2 + j) * 2 + k)
            = sampleX22.get (i * 2 + k) - (if j = k then 1 else 0) ∧
        pos.get ((i * 2 + j) * 2 + k) - neg.get ((i * 2 + j) * 2 + k)
            = (if j = k then 2 * 1 else 0)) :=
  ⟨rfl, by decide, perturb_rows_spec sampleX22 2 [2] 1 rfl (by decide)⟩

/-- C5: in probability-preserving mode (`proba=True`), for a batch whose
flattened feature count exceeds 1, each row of both perturbed outputs sums
to the same total as the corresponding original instance row (exactly, in
exact arithmetic). -/
theorem perturb_proba_row_sum (X : Arr) (n : ℕ) (f : List ℕ) (eps : ℚ)
    (hX : X.shape = n :: f) (hn : 0 < n) (hD : 1 < f.prod) :
    ∃ pos neg, perturb X eps true = some (pos, neg) ∧
      ∀ i j, i < n → j < f.prod →
        (∑ k ∈ Finset.range f.prod, pos.get ((i * f.prod + j) * f.prod + k))
          = (∑ k ∈ Finset.range f.prod, X.get (i * f.prod + k)) ∧
        (∑ k ∈ Finset.range f.prod, neg.get ((i * f.prod + j) * f.prod + k))
          = (∑ k ∈ Finset.range f.prod, X.get (i * f.prod + k)) := by
  obtain ⟨pos, neg, hEq, hposS, hnegS, hposG, hnegG⟩ :=
    perturb_true_spec X n f eps hX hn
  refine ⟨pos, neg, hEq, ?_⟩
  intro i j hi hj
  have hpertSum : (∑ k ∈ Finset.range f.prod,
      ((if j = k then eps else 0)
        + ((if j = k then (1 : ℚ) else 0) - 1) * (eps / ((f.prod : ℚ) - 1)))) = 0 := by
    rw [Finset.sum_add_distrib]
    have ha : (∑ k ∈ Finset.range f.prod, (if j = k then eps else 0)) = eps := by
      rw [Finset.sum_ite_eq]
      simp [Finset.mem_range.mpr hj]
    have hb : (∑ k ∈ Finset.range f.prod,
        ((if j = k then (1 : ℚ) else 0) - 1) * (eps / ((f.prod : ℚ) - 1)))
        = (1 - (f.prod : ℚ)) * (eps / ((f.prod : ℚ) - 1)) := by
      rw [← Finset.sum_mul]
      congr 1
      rw [Finset.sum_sub_distrib]
      have hc : (∑ k ∈ Finset.range f.prod, (if j = k then (1 : ℚ) else 0)) = 1 := by
        rw [Finset.sum_ite_eq]
        simp [Finset.mem_range.mpr hj]
      rw [hc]
      simp [Finset.card_range]
    rw [ha, hb]
    have hne : ((f.prod : ℚ) - 1) ≠ 0 := by
      have h0 : (1 : ℚ) < (f.prod : ℚ) := by exact_mod_cast hD
      intro hcon
      rw [sub_eq_zero] at hcon
      rw [← hcon] at h0
      exact lt_irrefl _ h0
    have h2 : (1 - (f.prod : ℚ)) * (eps / ((f.prod : ℚ) - 1))
        = -(((f.prod : ℚ) - 1) * (eps / ((f.prod : ℚ) - 1))) := by ring
    have h3 : ((f.prod : ℚ) - 1) * (eps / ((f.prod : ℚ) - 1)) = eps := by
      rw [mul_comm, div_mul_cancel₀ _ hne]
    rw [h2, h3]
    ring
  constructor
  · have hrw : ∀ k ∈ Finset.range f.prod,
        pos.get ((i * f.prod + j) * f.prod + k)
          = X.get (i * f.prod + k) + ((if j = k then eps else 0)
            + ((if j = k then (1 : ℚ) else 0) - 1) * (eps / ((f.prod : ℚ) - 1))) := by
      intro k hk
      have hkd : k < f.prod := Finset.mem_range.mp hk
      have hp : (i * f.prod + j) * f.prod + k < n * f.prod * f.prod :=
        row_idx_lt i j k n f.prod hi hj hkd
      have h := hposG _ hp
      rw [idx_div _ _ _ hkd, idx_mod _ _ _ hkd, idx_div _ _ _ hj, idx_mod _ _ _ hj]
        at h
      exact h
    rw [Finset.sum_congr rfl hrw, Finset.sum_add_distrib, hpertSum, add_zero]
  · have hrw : ∀ k ∈ Finset.range f.prod,
        neg.get ((i * f.prod + j) * f.prod + k)
          = X.get (i * f.prod + k) - ((if j = k then eps else 0)
            + ((if j = k then (1 : ℚ) else 0) - 1) * (eps / ((f.prod : ℚ) - 1))) := by
      intro k hk
      have hkd : k < f.prod := Finset.mem_range.mp hk
      have hp : (i * f.prod + j) * f.prod + k < n * f.prod * f.prod :=
        row_idx_lt i j k n f.prod hi hj hkd
      have h := hnegG _ hp
      rw [idx_div _ _ _ hkd, idx_mod _ _ _ hkd, idx_div _ _ _ hj, idx_mod _ _ _ hj]
        at h
      exact h
    rw [Finset.sum_congr rfl hrw, Finset.sum_sub_distrib, hpertSum, sub_zero]

/-- Witness for C5 at the concrete batch `sampleX22` with `eps = 1`. -/
theorem perturb_proba_row_sum_witness :
    sampleX22.shape = 2 :: [2] ∧ 0 < 2 ∧ 1 < 2 ∧
    (∃ pos neg, perturb sampleX22 1 true = some (pos, neg) ∧
      ∀ i j, i < 2 → j < 2 →
        (∑ k ∈ Finset.range 2, pos.get ((i * 2 + j) * 2 + k))
          = (∑ k ∈ Finset.range 2, sampleX22.get (i * 2 + k)) ∧
        (∑ k ∈ Finset.range 2, neg.get ((i * 2 + j) * 2 + k))
          = (∑ k ∈ Finset.range 2, sampleX22.get (i * 2 + k))) :=
  ⟨rfl, by decide, by decide,
    perturb_proba_row_sum sampleX22 2 [2] 1 rfl (by decide) (by decide)⟩

/-! Spec lemmas for concatenation and row slicing at the shapes used by
`num_grad_batch`. -/

theorem concatRows_spec (a b : Arr) (r1 r2 : ℕ) (f : List ℕ)
    (ha : a.shape = r1 :: f) (hb : b.shape = r2 :: f) :
    ∃ cc, concatRows a b = some cc ∧ cc.shape = (r1 + r2) :: f ∧
      cc.data = a.data ++ b.data := by
  obtain ⟨sa, da, hla⟩ := a
  obtain ⟨sb, db, hlb⟩ := b
  have ha2 : sa = r1 :: f := ha
  have hb2 : sb = r2 :: f := hb
  subst ha2
  subst hb2
  have hlen : (da ++ db).length = ((r1 + r2) :: f).prod := by
    simp only [List.length_append, List.prod_cons] at hla hlb ⊢
    rw [hla, hlb, Nat.add_mul]
  refine ⟨⟨(r1 + r2) :: f, da ++ db, hlen⟩, ?_, rfl, rfl⟩
  simp [concatRows]

theorem sliceTake_spec (a : Arr) (r : ℕ) (f : List ℕ) (k : ℕ)
    (ha : a.shape = r :: f) :
    ∃ b, sliceTake a k = some b ∧ b.shape = (min k r) :: f ∧
      b.data = a.data.take (k * f.prod) := by
  obtain ⟨sa, da, hla⟩ := a
  have ha2 : sa = r :: f := ha
  subst ha2
  exact ⟨_, rfl, rfl, rfl⟩

theorem sliceDrop_spec (a : Arr) (r : ℕ) (f : List ℕ) (k : ℕ)
    (ha : a.shape = r :: f) :
    ∃ b, sliceDrop a k = some b ∧ b.shape = (r - k) :: f ∧
      b.data = a.data.drop (k * f.prod) := by
  obtain ⟨sa, da, hla⟩ := a
  have ha2 : sa = r :: f := ha
  subst ha2
  exact ⟨_, rfl, rfl, rfl⟩

/-- Master characterisation of `num_grad_batch` for a black-box function
producing one prediction value per instance (`P = 1` after flattening): the
call succeeds, the gradient has shape `(n, 1, *f)`, and entry `p` is the
central difference of the predictions on the concatenated perturbed batch. -/
theorem num_grad_batch_spec (func : Arr → Arr)
    (hsize : ∀ A : Arr, (func A).size = A.shape.getD 0 0)
    (X : Arr) (n : ℕ) (f : List ℕ) (eps : ℚ)
    (hX : X.shape = n :: f) (hn : 0 < n) :
    ∃ pos neg xpert G,
      perturb X eps false = some (pos, neg) ∧
      concatRows pos neg = some xpert ∧
      num_grad_batch func X eps = some G ∧
      G.shape = n :: 1 :: f ∧
      ∀ p, p < n * f.prod →
        G.get p = ((func xpert).get p - (func xpert).get (f.prod * n + p))
          / (2 * eps) := by
  have hn0 : ¬ n = 0 := by omega
  -- step 1: preds = tf.reshape(func(X), (-1, 1))
  have hfx : (func X).size = n := by rw [hsize, hX]; rfl
  have hres1 : resolveShape (func X).size [none, some 1] = some [n, 1] := by
    rw [resolveShape_infer_col, hfx]
  obtain ⟨preds, hpredsEq, hpredsS, hpredsD⟩ :=
    reshapeC_spec (func X) [none, some 1] [n, 1] hres1 (by simp [hfx])
  -- step 2: perturbation
  obtain ⟨pos, neg, hPEq, hposS, hnegS, hposG, hnegG⟩ :=
    perturb_false_spec X n f eps hX hn
  -- step 3: X_pert = np.concatenate([pos, neg])
  obtain ⟨xpert, hccEq, hccS, hccD⟩ :=
    concatRows_spec pos neg (f.prod * n) (f.prod * n) f hposS hnegS
  -- step 4: preds_concat reshaped to a column
  have hfxp : (func xpert).size = f.prod * n + f.prod * n := by
    rw [hsize, hccS]; rfl
  have hres2 : resolveShape (func xpert).size [none, some 1]
      = some [f.prod * n + f.prod * n, 1] := by
    rw [resolveShape_infer_col, hfxp]
  obtain ⟨pc, hpcEq, hpcS, hpcD⟩ :=
    reshapeC_spec (func xpert) [none, some 1] [f.prod * n + f.prod * n, 1]
      hres2 (by simp [hfxp])
  -- step 5/6: the positive and negative slices
  obtain ⟨top, hTopEq, hTopS, hTopD⟩ :=
    sliceTake_spec pc (f.prod * n + f.prod * n) [1] (f.prod * n) hpcS
  obtain ⟨bot, hBotEq, hBotS, hBotD⟩ :=
    sliceDrop_spec pc (f.prod * n + f.prod * n) [1] (f.prod * n) hpcS
  have hTopS2 : top.shape = [f.prod * n, 1] := by
    rw [hTopS, min_eq_left (Nat.le_add_right _ _)]
  have hBotS2 : bot.shape = [f.prod * n, 1] := by
    rw [hBotS, Nat.add_sub_cancel]
  -- step 7: grad_numerator = top - bot
  have hgn0 := broadcast2_same (· - ·) top bot (f.prod * n) 1 hTopS2 hBotS2
  -- step 8: reshape to (batch_size, -1)
  have hgn0size : (arrOf [f.prod * n, 1]
      (fun p => top.get p - bot.get p)).size = f.prod * n := by
    simp [arrOf_size]
  have hres3 : resolveShape (arrOf [f.prod * n, 1]
      (fun p => top.get p - bot.get p)).size [some n, none] = some [n, f.prod] := by
    rw [hgn0size, resolveShape_rows n (f.prod * n) hn ⟨f.prod, Nat.mul_comm _ _⟩,
      Nat.mul_div_cancel _ hn]
  obtain ⟨gn1, hgn1Eq, hgn1S, hgn1D⟩ :=
    reshapeC_spec (arrOf [f.prod * n, 1] (fun p => top.get p - bot.get p))
      [some n, none] [n, f.prod] hres3 (by simp [hgn0size]; ring)
  -- step 9: Fortran-order reshape to (batch_size, 1, -1)
  have hgn1size : gn1.size = n * f.prod := by simp [Arr.size, hgn1S]
  have hres4 : resolveShape gn1.size [some n, some 1, none] = some [n, 1, f.prod] := by
    rw [hgn1size, resolveShape_fshape n (n * f.prod) hn ⟨f.prod, rfl⟩,
      Nat.mul_div_cancel_left _ hn]
  have hgnEq := reshapeF_spec gn1 [some n, some 1, none] [n, 1, f.prod] hres4
  -- step 10: final reshape to preds.shape + data_shape
  have hgradsize : (divScalar (arrOf [n, 1, f.prod] (fun p =>
      gn1.get (cPos gn1.shape (unrankF gn1.shape
        (fPos [n, 1, f.prod] (unrankC [n, 1, f.prod] p)))))) (2 * eps)).size
      = n * f.prod := by
    simp [divScalar, arrOf_size, arrOf_shape]
  have hres5 : resolveShape (divScalar (arrOf [n, 1, f.prod] (fun p =>
      gn1.get (cPos gn1.shape (unrankF gn1.shape
        (fPos [n, 1, f.prod] (unrankC [n, 1, f.prod] p)))))) (2 * eps)).size
      ((n :: 1 :: f).map some) = some (n :: 1 :: f) := by
    apply resolveShape_allSome
    rw [hgradsize]
    simp [List.prod_cons]
  obtain ⟨G, hGEq, hGS, hGD⟩ :=
    reshapeC_spec (divScalar (arrOf [n, 1, f.prod] (fun p =>
      gn1.get (cPos gn1.shape (unrankF gn1.shape
        (fPos [n, 1, f.prod] (unrankC [n, 1, f.prod] p)))))) (2 * eps))
      ((n :: 1 :: f).map some) (n :: 1 :: f) hres5
      (by rw [hgradsize]; simp [List.prod_cons])
  refine ⟨pos, neg, xpert, G, hPEq, hccEq, ?_, hGS, ?_⟩
  · simp only [num_grad_batch, hX, hn0, if_false, hpredsEq, Option.bind_eq_bind,
      Option.some_bind, hPEq]
    simp only [hccEq, Option.some_bind, hpcEq, hposS, List.getD_cons_zero,
      hTopEq, hBotEq, sub2]
    rw [hgn0]
    simp only [Option.some_bind, hgn1Eq, hpredsS, List.getD_cons_succ,
      List.getD_cons_zero]
    rw [hgnEq]
    simp only [Option.some_bind, hpredsS, List.cons_append, List.nil_append]
    exact hGEq
  · intro p hp
    have hp3 : p < ([n, 1, f.prod] : List ℕ).prod := by
      simpa [List.prod_cons] using hp
    have h1 : G.get p = (divScalar (arrOf [n, 1, f.prod] (fun q =>
        gn1.get (cPos gn1.shape (unrankF gn1.shape
          (fPos [n, 1, f.prod] (unrankC [n, 1, f.prod] q)))))) (2 * eps)).get p :=
      Arr.get_of_data_eq hGD p
    have h2 : (divScalar (arrOf [n, 1, f.prod] (fun q =>
        gn1.get (cPos gn1.shape (unrankF gn1.shape
          (fPos [n, 1, f.prod] (unrankC [n, 1, f.prod] q)))))) (2 * eps)).get p
        = (arrOf [n, 1, f.prod] (fun q =>
            gn1.get (cPos gn1.shape (unrankF gn1.shape
              (fPos [n, 1, f.prod] (unrankC [n, 1, f.prod] q)))))).get p / (2 * eps) :=
      arrOf_get [n, 1, f.prod] _ p hp3
    have h3 : (arrOf [n, 1, f.prod] (fun q =>
        gn1.get (cPos gn1.shape (unrankF gn1.shape
          (fPos [n, 1, f.prod] (unrankC [n, 1, f.prod] q)))))).get p
        = gn1.get (cPos gn1.shape (unrankF gn1.shape
            (fPos [n, 1, f.prod] (unrankC [n, 1, f.prod] p)))) :=
      arrOf_get [n, 1, f.prod] _ p hp3
    have h4 : cPos gn1.shape (unrankF gn1.shape
        (fPos [n, 1, f.prod] (unrankC [n, 1, f.prod] p))) = p := by
      rw [hgn1S]
      exact fIndex_id n f.prod p hp
    have h5 : gn1.get p = top.get p - bot.get p := by
      rw [Arr.get_of_data_eq hgn1D]
      exact arrOf_get [f.prod * n, 1] _ p (by simpa [List.prod_cons, Nat.mul_comm] using hp)
    have h6 : top.get p = (func xpert).get p := by
      rw [Arr.get, hTopD]
      have hb : p < f.prod * n * ([1] : List ℕ).prod := by
        have h9 : f.prod * n * ([1] : List ℕ).prod = n * f.prod := by
          simp [Nat.mul_comm]
        rw [h9]
        exact hp
      rw [getD_take _ _ _ hb, hpcD]
      rfl
    have h7 : bot.get p = (func xpert).get (f.prod * n + p) := by
      rw [Arr.get, hBotD, getD_drop, hpcD]
      have h9 : f.prod * n * ([1] : List ℕ).prod + p = f.prod * n + p := by simp
      rw [h9]
      rfl
    rw [h1, h2, h3, h4, h5, h6, h7]


theorem row_idx_lt2 (i j n D : ℕ) (hi : i < n) (hj : j < D) :
    i * D + j < n * D := by
  calc i * D + j < i * D + D := by omega
    _ = (i + 1) * D := by ring
    _ ≤ n * D := Nat.mul_le_mul_right D hi

/-- C1 (amended): when the black-box function produces predictions of
shape `(batch, 1)` — a single output class after flattening — and the
batch is nonempty, `num_grad_batch` returns a gradient tensor of shape
`(N, 1, *feature_shape)`.  (For more than one output class the internal
flattening to a single column makes the positive/negative split
mismatched and the call fails; see the counterexample.) -/
theorem num_grad_batch_single_output_shape (func : Arr → Arr)
    (hfunc : ∀ A : Arr, (func A).shape = [A.shape.getD 0 0, 1])
    (X : Arr) (n : ℕ) (f : List ℕ) (eps : ℚ)
    (hX : X.shape = n :: f) (hn : 0 < n) :
    ∃ G, num_grad_batch func X eps = some G ∧ G.shape = n :: 1 :: f := by
  have hsize : ∀ A : Arr, (func A).size = A.shape.getD 0 0 := by
    intro A
    rw [Arr.size, hfunc]
    simp
  obtain ⟨pos, neg, xpert, G, hPEq, hccEq, hGEq, hGS, hGget⟩ :=
    num_grad_batch_spec func hsize X n f eps hX hn
  exact ⟨G, hGEq, hGS⟩

/-- Witness for the amended C1: a constant one-class predictor on the
concrete batch `sampleX12` yields a gradient of shape `(1, 1, 2)`. -/
theorem num_grad_batch_single_output_shape_witness :
    (∀ A : Arr, (oneClassFunc A).shape = [A.shape.getD 0 0, 1]) ∧
    sampleX12.shape = 1 :: [2] ∧ 0 < 1 ∧
    (∃ G, num_grad_batch oneClassFunc sampleX12 1 = some G ∧
      G.shape = 1 :: 1 :: [2]) :=
  ⟨fun _ => rfl, rfl, by decide,
    num_grad_batch_single_output_shape oneClassFunc (fun _ => rfl)
      sampleX12 1 [2] 1 rfl (by decide)⟩

/-- Counterexample to C1 as stated: for a predictor with two output
classes (predictions of shape `(batch, 2)`) on a batch of shape `(1, 2)`,
`num_grad_batch` does not return a gradient tensor at all — the
subtraction of the mismatched positive/negative slices raises — so no
array of shape `(N, P, *feature_shape)` is produced. -/
theorem num_grad_batch_two_class_fails :
    (∀ A : Arr, (twoClassFunc A).shape = [A.shape.getD 0 0, 2]) ∧
    num_grad_batch twoClassFunc sampleX12 1 = none :=
  ⟨fun _ => rfl, rfl⟩

/-- C6: for a linear prediction function `f(x) = w . x`, any nonempty
batch `X` and any nonzero step `eps`, `num_grad_batch` returns exactly `w`
broadcast across the batch (exact arithmetic over the rationals). -/
theorem num_grad_batch_linear_exact (w : List ℚ) (X : Arr) (n : ℕ)
    (f : List ℕ) (eps : ℚ) (hX : X.shape = n :: f) (hn : 0 < n)
    (heps : eps ≠ 0) :
    ∃ G, num_grad_batch (linFunc w) X eps = some G ∧ G.shape = n :: 1 :: f ∧
      ∀ i j, i < n → j < f.prod → G.get (i * f.prod + j) = w.getD j 0 := by
  have hsize : ∀ A : Arr, (linFunc w A).size = A.shape.getD 0 0 := by
    intro A
    simp [linFunc, arrOf_size]
  obtain ⟨pos, neg, hPEq, hposS, hnegS, hposG, hnegG⟩ :=
    perturb_false_spec X n f eps hX hn
  obtain ⟨pos2, neg2, xpert, G, hPEq2, hccEq, hGEq, hGS, hGget⟩ :=
    num_grad_batch_spec (linFunc w) hsize X n f eps hX hn
  have hpr : pos2 = pos ∧ neg2 = neg := by
    have h0 := hPEq.symm.trans hPEq2
    rw [Option.some_inj, Prod.ext_iff] at h0
    exact ⟨h0.1.symm, h0.2.symm⟩
  rw [hpr.1, hpr.2] at hccEq
  obtain ⟨cc, hccEq2, hccS, hccD⟩ :=
    concatRows_spec pos neg (f.prod * n) (f.prod * n) f hposS hnegS
  have hxc : cc = xpert := by
    have h0 := hccEq2.symm.trans hccEq
    rwa [Option.some_inj] at h0
  rw [hxc] at hccS hccD
  have hposlen : pos.data.length = n * f.prod * f.prod := by
    rw [pos.hlen, hposS]
    simp only [List.prod_cons]
    ring
  have hxg1 : ∀ r, r < n * f.prod * f.prod → xpert.get r = pos.get r := by
    intro r hr
    rw [Arr.get, Arr.get, hccD]
    exact List.getD_append _ _ _ _ (by rw [hposlen]; exact hr)
  have hxg2 : ∀ r, xpert.get (n * f.prod * f.prod + r) = neg.get r := by
    intro r
    rw [Arr.get, Arr.get, hccD,
      List.getD_append_right _ _ _ _ (by rw [hposlen]; exact Nat.le_add_right _ _)]
    congr 1
    rw [hposlen]
    omega
  have hlin : ∀ q, q < f.prod * n + f.prod * n →
      (linFunc w xpert).get q
        = ∑ k ∈ Finset.range f.prod, w.getD k 0 * xpert.get (q * f.prod + k) := by
    intro q hq
    have he : linFunc w xpert = arrOf [f.prod * n + f.prod * n]
        (fun i => ∑ k ∈ Finset.range f.prod,
          w.getD k 0 * xpert.get (i * f.prod + k)) := by
      simp [linFunc, hccS]
    rw [he]
    exact arrOf_get _ _ q (by simpa using hq)
  have key : ∀ i j, i < n → j < f.prod →
      (linFunc w xpert).get (i * f.prod + j)
        - (linFunc w xpert).get (f.prod * n + (i * f.prod + j))
        = 2 * eps * w.getD j 0 := by
    intro i j hi hj
    have hp0 : i * f.prod + j < n * f.prod := row_idx_lt2 i j n f.prod hi hj
    have hp1 : i * f.prod + j < f.prod * n + f.prod * n := by
      have h9 : n * f.prod = f.prod * n := Nat.mul_comm _ _
      omega
    have hp2 : f.prod * n + (i * f.prod + j) < f.prod * n + f.prod * n := by
      have h9 : n * f.prod = f.prod * n := Nat.mul_comm _ _
      omega
    rw [hlin _ hp1, hlin _ hp2, ← Finset.sum_sub_distrib]
    have hterm : ∀ k ∈ Finset.range f.prod,
        w.getD k 0 * xpert.get ((i * f.prod + j) * f.prod + k)
          - w.getD k 0 * xpert.get ((f.prod * n + (i * f.prod + j)) * f.prod + k)
        = if j = k then 2 * eps * w.getD k 0 else 0 := by
      intro k hk
      have hkD := Finset.mem_range.mp hk
      have hq : (i * f.prod + j) * f.prod + k < n * f.prod * f.prod :=
        row_idx_lt i j k n f.prod hi hj hkD
      have hxa : xpert.get ((i * f.prod + j) * f.prod + k)
          = pos.get ((i * f.prod + j) * f.prod + k) := hxg1 _ hq
      have hidx2 : (f.prod * n + (i * f.prod + j)) * f.prod + k
          = n * f.prod * f.prod + ((i * f.prod + j) * f.prod + k) := by ring
      have hxb : xpert.get ((f.prod * n + (i * f.prod + j)) * f.prod + k)
          = neg.get ((i * f.prod + j) * f.prod + k) := by
        rw [hidx2]
        exact hxg2 _
      rw [hxa, hxb, hposG _ hq, hnegG _ hq, idx_div _ _ _ hkD, idx_mod _ _ _ hkD,
        idx_div _ _ _ hj, idx_mod _ _ _ hj]
      by_cases h : j = k
      · simp only [h, if_true, eq_self_iff_true]
        ring
      · simp [h]
    rw [Finset.sum_congr rfl hterm, Finset.sum_ite_eq]
    simp [Finset.mem_range.mpr hj]
  refine ⟨G, hGEq, hGS, ?_⟩
  intro i j hi hj
  have hp1 : i * f.prod + j < n * f.prod := row_idx_lt2 i j n f.prod hi hj
  have h2e : (2 : ℚ) * eps ≠ 0 := mul_ne_zero two_ne_zero heps
  rw [hGget _ hp1, key i j hi hj]
  exact mul_div_cancel_left₀ _ h2e

/-- Witness for C6: the linear function with weights `(3, 5)` on the
concrete batch `sampleX12` with `eps = 1` recovers the weights exactly. -/
theorem num_grad_batch_linear_exact_witness :
    sampleX12.shape = 1 :: [2] ∧ 0 < 1 ∧ (1 : ℚ) ≠ 0 ∧
    (∃ G, num_grad_batch (linFunc [3, 5]) sampleX12 1 = some G ∧
      G.shape = 1 :: 1 :: [2] ∧
      ∀ i j, i < 1 → j < 2 →
        G.get (i * 2 + j) = ([3, 5] : List ℚ).getD j 0) :=
  ⟨rfl, by decide, by decide,
    num_grad_batch_linear_exact [3, 5] sampleX12 1 [2] 1 rfl (by decide)
      (by decide)⟩


/-! Registry lemmas and claims about the decorators. -/

theorem dictSet_lookup_self {β : Type} (reg : List (String × β)) (k : String)
    (v : β) : (dictSet reg k v).lookup k = some v := by
  induction reg with
  | nil => simp [dictSet, List.lookup]
  | cons a rest ih =>
    obtain ⟨k0, v0⟩ := a
    by_cases h : k0 = k
    · subst h
      simp [dictSet, List.lookup]
    · have hb : (k == k0) = false := by
        simp only [beq_eq_false_iff_ne, ne_eq]
        exact Ne.symm h
      simp [dictSet, h, List.lookup, hb, ih]

/-- Counterexample to C2 as stated: applying the `numerical_gradient`
decorator with the unknown framework string `"keras"` does not succeed and
does not create an orphan entry — indexing the registry dict with a
missing key raises `KeyError` (modelled by `none`). -/
theorem numerical_gradient_unknown_framework_key_error :
    applyNumericalGradient (numericalGradientsInit ℕ) ("keras") 0 = none := rfl

/-- C2 (amended): applying the `numerical_gradient(s)` decorator appends
the callable to the registry list for key `s` when `s` is one of the two
existing keys; for any other string the dict indexing raises `KeyError`
and no orphan entry is created. -/
theorem numerical_gradient_registration {α : Type}
    (reg : List (String × List α)) (s : String) (func : α)
    (hkeys : reg.map Prod.fst = ["pytorch", "tensorflow"]) :
    ((s = "pytorch" ∨ s = "tensorflow") →
      ∃ l reg2, reg.lookup s = some l ∧
        applyNumericalGradient reg s func = some reg2 ∧
        reg2.lookup s = some (l ++ [func]) ∧
        reg2.map Prod.fst = ["pytorch", "tensorflow"]) ∧
    (s ≠ "pytorch" → s ≠ "tensorflow" →
      applyNumericalGradient reg s func = none) := by
  cases reg with
  | nil => simp at hkeys
  | cons a rest =>
    cases rest with
    | nil => simp at hkeys
    | cons b rest2 =>
      cases rest2 with
      | cons c rest3 => simp at hkeys
      | nil =>
        obtain ⟨k1, v1⟩ := a
        obtain ⟨k2, v2⟩ := b
        simp only [List.map_cons, List.map_nil, List.cons.injEq, and_true] at hkeys
        obtain ⟨hk1, hk2⟩ := hkeys
        subst hk1
        subst hk2
        constructor
        · rintro (rfl | rfl)
          · refine ⟨v1, [("pytorch", v1 ++ [func]), ("tensorflow", v2)],
              ?_, ?_, ?_, ?_⟩
            · simp [List.lookup]
            · simp [applyNumericalGradient, List.lookup]
            · simp [List.lookup]
            · simp
          · refine ⟨v2, [("pytorch", v1), ("tensorflow", v2 ++ [func])],
              ?_, ?_, ?_, ?_⟩
            · simp [List.lookup]
            · simp [applyNumericalGradient, List.lookup]
            · simp [List.lookup]
            · simp
        · intro h1 h2
          have hb1 : (s == "pytorch") = false := by
            simp only [beq_eq_false_iff_ne, ne_eq]
            exact h1
          have hb2 : (s == "tensorflow") = false := by
            simp only [beq_eq_false_iff_ne, ne_eq]
            exact h2
          simp [applyNumericalGradient, List.lookup, hb1, hb2]

/-- Witness for the amended C2: registering under `"tensorflow"` appends to
the tensorflow list of the initial registry. -/
theorem numerical_gradient_registration_witness :
    (numericalGradientsInit ℕ).map Prod.fst = ["pytorch", "tensorflow"] ∧
    (∃ l reg2, (numericalGradientsInit ℕ).lookup ("tensorflow") = some l ∧
      applyNumericalGradient (numericalGradientsInit ℕ) ("tensorflow") 7
        = some reg2 ∧
      reg2.lookup ("tensorflow") = some (l ++ [7]) ∧
      reg2.map Prod.fst = ["pytorch", "tensorflow"]) :=
  ⟨rfl, (numerical_gradient_registration (numericalGradientsInit ℕ)
    ("tensorflow") 7 rfl).1 (Or.inr rfl)⟩

/-- Counterexample to C3 as stated: registering a wrapper under `"keras"`
does raise the value error (`false` flag), but the registry is NOT
unchanged — the dict assignment runs before the validation, so the
registry now has a third key `"keras"`. -/
theorem blackbox_wrapper_keras_mutates_registry :
    (applyBlackboxWrapper (blackboxWrappersInit ℕ) ("keras") 0).2 = false ∧
    (applyBlackboxWrapper (blackboxWrappersInit ℕ) ("keras") 0).1.map Prod.fst
      = ["pytorch", "tensorflow", "keras"] :=
  ⟨rfl, rfl⟩

/-- C3 (amended): for an unknown framework name the decorator raises the
value error, but only after the assignment has run: the final registry is
the dict with the wrapper stored under the unknown name. -/
theorem blackbox_wrapper_unknown_raises_after_insert {α : Type}
    (reg : List (String × Option α)) (s : String) (func : α)
    (h1 : s ≠ "pytorch") (h2 : s ≠ "tensorflow") :
    applyBlackboxWrapper reg s func = (dictSet reg s (some func), false) ∧
    (dictSet reg s (some func)).lookup s = some (some func) := by
  constructor
  · simp [applyBlackboxWrapper, h1, h2]
  · exact dictSet_lookup_self reg s (some func)

/-- Witness for the amended C3 at the concrete name `"keras"`. -/
theorem blackbox_wrapper_unknown_raises_after_insert_witness :
    ("keras" : String) ≠ "pytorch" ∧ ("keras" : String) ≠ "tensorflow" ∧
    (applyBlackboxWrapper (blackboxWrappersInit ℕ) ("keras") 5
        = (dictSet (blackboxWrappersInit ℕ) ("keras") (some 5), false) ∧
      (dictSet (blackboxWrappersInit ℕ) ("keras") (some 5)).lookup ("keras")
        = some (some 5)) :=
  ⟨by decide, by decide,
    blackbox_wrapper_unknown_raises_after_insert (blackboxWrappersInit ℕ)
      ("keras") 5 (by decide) (by decide)⟩

/-- C7: `get_blackbox_wrapper('tensorflow')` returns the stored `None`
before any registration, and after any nonempty sequence of successful
`blackbox_wrapper('tensorflow')` registrations it returns the
last-registered callable (later registrations overwrite earlier ones). -/
theorem get_blackbox_wrapper_last_registered {α : Type} :
    getBlackboxWrapper (blackboxWrappersInit α) ("tensorflow") = some none ∧
    ∀ (fs : List α) (func : α),
      getBlackboxWrapper
        ((fs ++ [func]).foldl
          (fun r g => (applyBlackboxWrapper r ("tensorflow") g).1)
          (blackboxWrappersInit α)) ("tensorflow") = some (some func) := by
  constructor
  · rfl
  · intro fs func
    rw [List.foldl_append]
    simp only [List.foldl_cons, List.foldl_nil, applyBlackboxWrapper]
    exact dictSet_lookup_self _ _ _

/-- C8: constructing a `Predictor` raises the attribute error exactly when
the wrapped classifier lacks a `predict` attribute; on success, calling the
predictor applies the preprocessor transform (when one was given) followed
by the captured `predict` function. -/
theorem predictor_spec {α β : Type} (clf : Classifier α β)
    (pre : Option (Preprocessor α)) :
    ((∃ msg, Predictor.make clf pre = Except.error msg) ↔ clf.predict = none) ∧
    (∀ pfn, clf.predict = some pfn →
      ∃ P, Predictor.make clf pre = Except.ok P ∧
        ∀ x, P.call x = (match pre with
          | some pr => pfn (pr.transform x)
          | none => pfn x)) := by
  constructor
  · constructor
    · rintro ⟨msg, hmsg⟩
      cases hc : clf.predict with
      | none => rfl
      | some pfn => simp [Predictor.make, hc] at hmsg
    · intro hc
      exact ⟨"Classifier object is expected to have a predict method!",
        by simp [Predictor.make, hc]⟩
  · intro pfn hc
    refine ⟨⟨pfn, pre⟩, by simp [Predictor.make, hc], ?_⟩
    intro x
    cases pre with
    | none => simp [Predictor.call]
    | some pr => simp [Predictor.call]

/-- Witness for C8: the identity classifier with a doubling preprocessor;
the constructed predictor maps `x` to `x + x`. -/
theorem predictor_spec_witness :
    sampleClf.predict = some (fun v : ℚ => v) ∧
    (∃ P, Predictor.make sampleClf (some samplePre) = Except.ok P ∧
      ∀ x : ℚ, P.call x = x + x) :=
  ⟨rfl, (predictor_spec sampleClf (some samplePre)).2 (fun v => v) rfl⟩


/-! Lemmas about `argmaxList` (numpy argmax keeps the first maximum). -/

theorem argmax_foldl_spec (l : List ℚ) (il : List ℕ) :
    ∀ acc : ℕ,
      (List.foldl (fun best i => if l.getD best 0 < l.getD i 0 then i else best)
          acc il = acc
        ∨ List.foldl (fun best i => if l.getD best 0 < l.getD i 0 then i else best)
            acc il ∈ il) ∧
      l.getD acc 0 ≤ l.getD (List.foldl
        (fun best i => if l.getD best 0 < l.getD i 0 then i else best) acc il) 0 ∧
      ∀ i ∈ il, l.getD i 0 ≤ l.getD (List.foldl
        (fun best i => if l.getD best 0 < l.getD i 0 then i else best) acc il) 0 := by
  induction il with
  | nil =>
    intro acc
    simp
  | cons i rest ih =>
    intro acc
    simp only [List.foldl_cons]
    by_cases h : l.getD acc 0 < l.getD i 0
    · simp only [if_pos h]
      obtain ⟨hmem, hacc, hall⟩ := ih i
      refine ⟨?_, le_trans (le_of_lt h) hacc, ?_⟩
      · rcases hmem with h1 | h1
        · right
          rw [h1]
          exact List.mem_cons_self i rest
        · right
          exact List.mem_cons_of_mem i h1
      · intro x hx
        rcases List.mem_cons.mp hx with rfl | hx2
        · exact hacc
        · exact hall x hx2
    · simp only [if_neg h]
      obtain ⟨hmem, hacc, hall⟩ := ih acc
      refine ⟨?_, hacc, ?_⟩
      · rcases hmem with h1 | h1
        · left
          exact h1
        · right
          exact List.mem_cons_of_mem i h1
      · intro x hx
        rcases List.mem_cons.mp hx with rfl | hx2
        · exact le_trans (not_lt.mp h) hacc
        · exact hall x hx2

theorem argmaxList_lt (l : List ℚ) (h : l ≠ []) : argmaxList l < l.length := by
  have hlen : 0 < l.length := List.length_pos.mpr h
  obtain ⟨hmem, _, _⟩ := argmax_foldl_spec l (List.range l.length) 0
  rcases hmem with h1 | h1
  · rw [argmaxList, h1]
    exact hlen
  · exact List.mem_range.mp h1

theorem argmaxList_le (l : List ℚ) :
    ∀ i, i < l.length → l.getD i 0 ≤ l.getD (argmaxList l) 0 := by
  intro i hi
  obtain ⟨_, _, hall⟩ := argmax_foldl_spec l (List.range l.length) 0
  exact hall i (List.mem_range.mpr hi)

theorem npAtleast2d_one_dim (a : Arr) (k : ℕ) (ha : a.shape = [k]) :
    (npAtleast2d a).shape = [1, k] ∧ (npAtleast2d a).data = a.data := by
  obtain ⟨sa, da, hla⟩ := a
  have ha2 : sa = [k] := ha
  subst ha2
  exact ⟨rfl, rfl⟩

theorem npArgmaxAxis1_one_row (b : Arr) (k : ℕ) (hb : b.shape = [1, k])
    (hk : 0 < k) : npArgmaxAxis1 b = some [argmaxList b.data] := by
  obtain ⟨sb, db, hlb⟩ := b
  have hb2 : sb = [1, k] := hb
  subst hb2
  have hk0 : ¬ k = 0 := by omega
  have hdb : db.length = k := by simpa using hlb
  have hr1 : List.range 1 = [0] := rfl
  have htake : db.take k = db := by
    rw [← hdb]
    exact List.take_length db
  simp only [npArgmaxAxis1, hk0, and_false, if_false, hr1, List.map_cons,
    List.map_nil, Nat.zero_mul, List.drop_zero, htake]

/-- C10: when the wrapped predictor returns a 1-D output of length `k > 0`,
`ArgmaxTransformer.__call__` promotes it to a single instance of shape
`(1, k)` and returns a one-element list holding the index of the maximum
over all `k` entries (the first maximal index), rather than one label per
entry. -/
theorem argmax_transformer_one_dim {α : Type} (predictor : α → Arr) (x : α)
    (k : ℕ) (hk : 0 < k) (hshape : (predictor x).shape = [k]) :
    argmaxTransformerCall predictor x = some [argmaxList (predictor x).data] ∧
    argmaxList (predictor x).data < k ∧
    ∀ i, i < k → (predictor x).data.getD i 0
      ≤ (predictor x).data.getD (argmaxList (predictor x).data) 0 := by
  have hlen : (predictor x).data.length = k := by
    rw [(predictor x).hlen, hshape]
    simp
  obtain ⟨h2s, h2d⟩ := npAtleast2d_one_dim (predictor x) k hshape
  refine ⟨?_, ?_, ?_⟩
  · rw [argmaxTransformerCall, npArgmaxAxis1_one_row (npAtleast2d (predictor x)) k h2s hk,
      h2d]
  · rw [← hlen]
    apply argmaxList_lt
    intro hnil
    rw [hnil] at hlen
    simp at hlen
    omega
  · intro i hi
    apply argmaxList_le
    rw [hlen]
    exact hi

/-- Witness for C10 at the concrete predictor returning `(0, 1)`: the
transformer returns the single label `1`. -/
theorem argmax_transformer_one_dim_witness :
    0 < 2 ∧ (samplePredictor 0).shape = [2] ∧
    (argmaxTransformerCall samplePredictor 0
        = some [argmaxList (samplePredictor 0).data] ∧
      argmaxList (samplePredictor 0).data < 2 ∧
      ∀ i, i < 2 → (samplePredictor 0).data.getD i 0
        ≤ (samplePredictor 0).data.getD (argmaxList (samplePredictor 0).data) 0) :=
  ⟨by decide, rfl, argmax_transformer_one_dim samplePredictor 0 2 (by decide) rfl⟩


/-! Frame property of `perturb` over the heap model. -/

theorem getD_set_ne {γ : Type} (l : List γ) (i j : ℕ) (a d : γ)
    (hij : i ≠ j) : (l.set i a).getD j d = l.getD j d := by
  rw [List.getD_eq_getElem?_getD, List.getElem?_set_ne hij,
    ← List.getD_eq_getElem?_getD]

/-- C9: `perturb` never writes to its input array.  In the heap model,
every buffer that existed before the call — in particular the buffer of
`X` — holds exactly its old contents afterwards, and the two returned
arrays live in freshly allocated buffers distinct from `X`'s (and from
each other): the results are computed, not aliases of `X`. -/
theorem perturb_frame (h : List (List ℚ)) (xId : ℕ) (xShape : List ℕ)
    (eps : ℚ) (proba : Bool) (h2 : List (List ℚ)) (p q : ℕ)
    (hx : xId < h.length)
    (hrun : perturbHeap h xId xShape eps proba = some (h2, p, q)) :
    (∀ i, i < h.length → h2.getD i [] = h.getD i []) ∧
    h.length ≤ p ∧ h.length ≤ q ∧ p ≠ xId ∧ q ≠ xId ∧ p ≠ q := by
  cases xShape with
  | nil => simp [perturbHeap] at hrun
  | cons n f =>
    by_cases n0 : n = 0
    · simp [perturbHeap, n0] at hrun
    · cases proba with
      | false =>
        simp only [perturbHeap, n0, if_false, Bool.false_eq_true,
          Option.some.injEq, Prod.mk.injEq] at hrun
        obtain ⟨hH, hP, hQ⟩ := hrun
        have hp2 : p = h.length + 2 := by
          rw [← hP]
          simp
        have hq3 : q = h.length + 3 := by
          rw [← hQ]
          simp
        refine ⟨?_, by omega, by omega, by omega, by omega, by omega⟩
        intro i hi
        rw [← hH]
        rw [List.getD_append _ _ _ _ (by simp; omega)]
        rw [List.getD_append _ _ _ _ (by simp; omega)]
        rw [List.getD_append _ _ _ _ (by simp; omega)]
        rw [List.getD_append _ _ _ _ hi]
      | true =>
        simp only [perturbHeap, n0, if_false, if_true, eq_self_iff_true,
          Option.some.injEq, Prod.mk.injEq] at hrun
        obtain ⟨hH, hP, hQ⟩ := hrun
        have hp2 : p = h.length + 2 := by
          rw [← hP]
          simp
        have hq3 : q = h.length + 3 := by
          rw [← hQ]
          simp
        refine ⟨?_, by omega, by omega, by omega, by omega, by omega⟩
        intro i hi
        rw [← hH]
        rw [List.getD_append _ _ _ _ (by simp; omega)]
        rw [List.getD_append _ _ _ _ (by simp; omega)]
        rw [List.getD_append _ _ _ _ (by simp; omega)]
        rw [getD_set_ne _ _ _ _ _ (by omega)]
        rw [List.getD_append _ _ _ _ hi]

/-- Witness for C9 on a concrete one-buffer heap. -/
theorem perturb_frame_witness :
    (0 : ℕ) < 1 ∧
    ∃ h2 p q, perturbHeap [[1, 2]] 0 [1, 2] 1 false = some (h2, p, q) ∧
      (∀ i, i < 1 → h2.getD i [] = [[(1 : ℚ), 2]].getD i []) ∧
      1 ≤ p ∧ 1 ≤ q ∧ p ≠ 0 ∧ q ≠ 0 ∧ p ≠ q := by
  refine ⟨by decide, ?_⟩
  obtain ⟨h2, p, q, hrun⟩ : ∃ h2 p q,
      perturbHeap [[(1 : ℚ), 2]] 0 [1, 2] 1 false = some (h2, p, q) := by
    refine ⟨_, _, _, rfl⟩
  exact ⟨h2, p, q, hrun, (perturb_frame [[1, 2]] 0 [1, 2] 1 false h2 p q
    (by decide) hrun).1, (perturb_frame [[1, 2]] 0 [1, 2] 1 false h2 p q
    (by decide) hrun).2.1, (perturb_frame [[1, 2]] 0 [1, 2] 1 false h2 p q
    (by decide) hrun).2.2.1, (perturb_frame [[1, 2]] 0 [1, 2] 1 false h2 p q
    (by decide) hrun).2.2.2.1, (perturb_frame [[1, 2]] 0 [1, 2] 1 false h2 p q
    (by decide) hrun).2.2.2.2.1, (perturb_frame [[1, 2]] 0 [1, 2] 1 false h2 p q
    (by decide) hrun).2.2.2.2.2⟩


end Alibi
